import Mathlib

/-!
Verification of the keystonelight key-value store's log codec, log file,
storage engine and protocol surface, as a shallow embedding over byte lists.

Rust strings and byte vectors are modelled as `List Nat` of byte values;
the functions below are translated from `src/storage/log.rs`,
`src/storage/mod.rs`, `src/protocol/mod.rs` and `src/server/mod.rs`.
-/

deriving instance DecidableEq for Except

namespace Keystone

/-- Byte list of an ASCII string literal (used only on ASCII literals). -/
def ascii (s : String) : List Nat := s.data.map Char.toNat

/-- UTF-8 continuation byte test (0x80..0xBF). -/
def contB (b : Nat) : Bool := decide (128 ≤ b ∧ b ≤ 191)

/-- UTF-8 validity of a byte sequence, as checked by Rust's
`String::from_utf8` (standard UTF-8: no overlongs, no surrogates,
max U+10FFFF). -/
def isValidUtf8 : List Nat → Bool
  | [] => true
  | b :: rest =>
    if b ≤ 127 then isValidUtf8 rest
    else if 194 ≤ b ∧ b ≤ 223 then
      match rest with
      | b2 :: r => contB b2 && isValidUtf8 r
      | [] => false
    else if b = 224 then
      match rest with
      | b2 :: b3 :: r => decide (160 ≤ b2 ∧ b2 ≤ 191) && contB b3 && isValidUtf8 r
      | _ => false
    else if (225 ≤ b ∧ b ≤ 236) ∨ b = 238 ∨ b = 239 then
      match rest with
      | b2 :: b3 :: r => contB b2 && contB b3 && isValidUtf8 r
      | _ => false
    else if b = 237 then
      match rest with
      | b2 :: b3 :: r => decide (128 ≤ b2 ∧ b2 ≤ 159) && contB b3 && isValidUtf8 r
      | _ => false
    else if b = 240 then
      match rest with
      | b2 :: b3 :: b4 :: r =>
          decide (144 ≤ b2 ∧ b2 ≤ 191) && contB b3 && contB b4 && isValidUtf8 r
      | _ => false
    else if 241 ≤ b ∧ b ≤ 243 then
      match rest with
      | b2 :: b3 :: b4 :: r => contB b2 && contB b3 && contB b4 && isValidUtf8 r
      | _ => false
    else if b = 244 then
      match rest with
      | b2 :: b3 :: b4 :: r =>
          decide (128 ≤ b2 ∧ b2 ≤ 143) && contB b3 && contB b4 && isValidUtf8 r
      | _ => false
    else false

/-- Standard base64 alphabet: 6-bit value to ASCII byte. -/
def b64c (n : Nat) : Nat :=
  if n < 26 then 65 + n
  else if n < 52 then 97 + (n - 26)
  else if n < 62 then 48 + (n - 52)
  else if n = 62 then 43
  else 47

/-- Inverse of the standard base64 alphabet. -/
def b64cInv (b : Nat) : Option Nat :=
  if 65 ≤ b ∧ b ≤ 90 then some (b - 65)
  else if 97 ≤ b ∧ b ≤ 122 then some (26 + (b - 97))
  else if 48 ≤ b ∧ b ≤ 57 then some (52 + (b - 48))
  else if b = 43 then some 62
  else if b = 47 then some 63
  else none

/-- Standard base64 encoding with padding, as produced by the base64
crate's `general_purpose::STANDARD` engine. -/
def b64encode : List Nat → List Nat
  | [] => []
  | [a] => [b64c (a / 4), b64c (a % 4 * 16), 61, 61]
  | [a, b] => [b64c (a / 4), b64c (a % 4 * 16 + b / 16), b64c (b % 16 * 4), 61]
  | a :: b :: c :: r =>
      b64c (a / 4) :: b64c (a % 4 * 16 + b / 16) ::
      b64c (b % 16 * 4 + c / 64) :: b64c (c % 64) :: b64encode r

/-- Strict base64 decoding as performed by `general_purpose::STANDARD`:
canonical padding required, no trailing bits, '=' only at the end. -/
def b64decode : List Nat → Option (List Nat)
  | [] => some []
  | c1 :: c2 :: c3 :: c4 :: rest =>
    (b64cInv c1).bind fun n1 =>
    (b64cInv c2).bind fun n2 =>
    if c3 = 61 then
      if c4 = 61 ∧ rest = [] then
        if n2 % 16 = 0 then some [n1 * 4 + n2 / 16] else none
      else none
    else
      (b64cInv c3).bind fun n3 =>
      if c4 = 61 then
        if rest = [] then
          if n3 % 4 = 0 then some [n1 * 4 + n2 / 16, n2 % 16 * 16 + n3 / 4]
          else none
        else none
      else
        (b64cInv c4).bind fun n4 =>
        (b64decode rest).map
          (fun t => (n1 * 4 + n2 / 16) :: (n2 % 16 * 16 + n3 / 4) ::
                    (n3 % 4 * 64 + n4) :: t)
  | _ => none

/-- ASCII whitespace byte (the one-byte Unicode `White_Space` characters). -/
def wsB (b : Nat) : Bool :=
  decide (b = 9 ∨ b = 10 ∨ b = 11 ∨ b = 12 ∨ b = 13 ∨ b = 32)

/-- Strip leading whitespace characters (Rust `str::trim_start`): drop
UTF-8-encoded Unicode `White_Space` characters from the front, one at a
time. -/
def trimStart : List Nat → List Nat
  | [] => []
  | b :: r =>
    if wsB b then trimStart r
    else
      match r with
      | [] => [b]
      | b2 :: r2 =>
        if b = 194 ∧ (b2 = 133 ∨ b2 = 160) then trimStart r2
        else
          match r2 with
          | [] => [b, b2]
          | b3 :: r3 =>
            if b = 225 ∧ b2 = 154 ∧ b3 = 128 then trimStart r3
            else if b = 226 ∧ b2 = 128 ∧
                ((128 ≤ b3 ∧ b3 ≤ 138) ∨ b3 = 168 ∨ b3 = 169 ∨ b3 = 175) then
              trimStart r3
            else if b = 226 ∧ b2 = 129 ∧ b3 = 159 then trimStart r3
            else if b = 227 ∧ b2 = 128 ∧ b3 = 128 then trimStart r3
            else b :: b2 :: b3 :: r3

/-- Strip whitespace characters from the front of a reversed byte list:
the same character set as `trimStart`, with each encoding reversed. -/
def revTrim : List Nat → List Nat
  | [] => []
  | b :: r =>
    if wsB b then revTrim r
    else
      match r with
      | [] => [b]
      | b2 :: r2 =>
        if (b = 133 ∨ b = 160) ∧ b2 = 194 then revTrim r2
        else
          match r2 with
          | [] => [b, b2]
          | b3 :: r3 =>
            if b = 128 ∧ b2 = 154 ∧ b3 = 225 then revTrim r3
            else if ((128 ≤ b ∧ b ≤ 138) ∨ b = 168 ∨ b = 169 ∨ b = 175) ∧
                b2 = 128 ∧ b3 = 226 then
              revTrim r3
            else if b = 159 ∧ b2 = 129 ∧ b3 = 226 then revTrim r3
            else if b = 128 ∧ b2 = 128 ∧ b3 = 227 then revTrim r3
            else b :: b2 :: b3 :: r3

/-- Strip trailing whitespace characters (Rust `str::trim_end`). -/
def trimEnd (l : List Nat) : List Nat := (revTrim l.reverse).reverse

/-- Rust `str::trim`: strip whitespace at both ends. -/
def trim (l : List Nat) : List Nat := trimEnd (trimStart l)

/-- Split at the first space byte: returns the part before the first
0x20 and, when a space was found, the remainder after it. Models one
step of Rust's `splitn(_, ' ')`. -/
def splitOnce : List Nat → List Nat × Option (List Nat)
  | [] => ([], none)
  | b :: r =>
    if b = 32 then ([], some r)
    else
      let p := splitOnce r
      (b :: p.1, p.2)

/-- The literal prefix bytes of `"base64:"`. -/
def base64Tag : List Nat := [98, 97, 115, 101, 54, 52, 58]

/-- A log record (`LogEntry` in `src/storage/log.rs`). -/
inductive LogEntry where
  | Set : List Nat → List Nat → LogEntry
  | Delete : List Nat → LogEntry
  | Compact : LogEntry
deriving DecidableEq, Repr

/-- The value field of a serialized SET record: the raw bytes when they
are valid UTF-8, otherwise `base64:` followed by the base64 encoding
(`LogEntry::to_string`, SET arm). -/
def encodeValue (v : List Nat) : List Nat :=
  if isValidUtf8 v then v else base64Tag ++ b64encode v

/-- Model of `LogEntry::to_string`: the serialized record, without the trailing
newline (`append` adds that separately). -/
def LogEntry.toString : LogEntry → List Nat
  | .Set k v => ascii "SET " ++ k ++ 32 :: encodeValue v
  | .Delete k => ascii "DELETE " ++ k
  | .Compact => ascii "COMPACT"

/-- Model of `LogEntry::from_string`: trim the line, split into at most three
space-separated parts, and match the SET / DELETE / COMPACT forms. -/
def fromString (line : List Nat) : Option LogEntry :=
  let l := trim line
  if l = [] then none
  else
    let p1 := splitOnce l
    if p1.1 = ascii "SET" then
      match p1.2 with
      | none => none
      | some rest =>
        let p2 := splitOnce rest
        match p2.2 with
        | none => none
        | some value =>
          if value.take 7 = base64Tag then
            match b64decode (value.drop 7) with
            | some dv => some (.Set p2.1 dv)
            | none => none
          else some (.Set p2.1 value)
    else if p1.1 = ascii "DELETE" then
      match p1.2 with
      | none => none
      | some rest => some (.Delete (splitOnce rest).1)
    else if p1.1 = ascii "COMPACT" then some .Compact
    else none

/-- Compaction threshold (`MAX_LOG_SIZE` in `src/storage/log.rs`). -/
def MAX_LOG_SIZE : Nat := 1024 * 1024

/-- Strip one trailing 0x0D, as `BufRead::lines` does for lines that were
terminated by a newline (CRLF handling). -/
def stripCr (l : List Nat) : List Nat :=
  match l.reverse with
  | [] => l
  | b :: a => if b = 13 then a.reverse else l

/-- Worker for `linesOf`: `acc` holds the bytes of the current line in
reverse. A 0x0A finishes a line (with CR stripping); a final non-empty
unterminated line is yielded as-is. -/
def linesAux (acc : List Nat) : List Nat → List (List Nat)
  | [] => if acc = [] then [] else [acc.reverse]
  | b :: r =>
    if b = 10 then stripCr acc.reverse :: linesAux [] r
    else linesAux (b :: acc) r

/-- The lines of a file's byte content, as produced by iterating
`BufRead::lines`: newline-terminated lines have a trailing CR stripped; a
final unterminated line is yielded as-is; no trailing empty line. -/
def linesOf (l : List Nat) : List (List Nat) := linesAux [] l

/-- The per-line loop of `LogFile::replay`: a line that is not valid UTF-8
aborts replay with an I/O error (`line?`); a line that fails to parse is
skipped; parsed entries are collected in order. -/
def replayLines : List (List Nat) → Except Unit (List LogEntry)
  | [] => .ok []
  | l :: ls =>
    if isValidUtf8 l then
      match replayLines ls with
      | .ok es => .ok ((fromString l).toList ++ es)
      | .error e => .error e
    else .error ()

/-- Model of `LogFile::replay`: read the file content line by line. -/
def replayE (content : List Nat) : Except Unit (List LogEntry) :=
  replayLines (linesOf content)

/-- Association-list update: replace the first binding of the key, or
append a new binding. Models `HashMap::insert` (iteration order of the
model is first-insertion order; the claims below do not depend on the
iteration order of Rust's `HashMap`). -/
def assocUpd {β : Type} : List (List Nat × β) → List Nat → β → List (List Nat × β)
  | [], k, v => [(k, v)]
  | (k', v') :: r, k, v =>
      if k' = k then (k, v) :: r else (k', v') :: assocUpd r k v

/-- Association-list lookup (`HashMap::get`). -/
def assocGet {β : Type} : List (List Nat × β) → List Nat → Option β
  | [], _ => none
  | (k', v') :: r, k => if k' = k then some v' else assocGet r k

/-- Association-list removal of the first binding (`HashMap::remove`). -/
def assocDel {β : Type} : List (List Nat × β) → List Nat → List (List Nat × β)
  | [], _ => []
  | (k', v') :: r, k => if k' = k then r else (k', v') :: assocDel r k

/-- The fold in `LogFile::compact` building `current_state`: latest entry
per key, `None` recording a deletion. -/
def foldCompact (es : List LogEntry) : List (List Nat × Option (List Nat)) :=
  es.foldl
    (fun m e =>
      match e with
      | .Set k v => assocUpd m k (some v)
      | .Delete k => assocUpd m k none
      | .Compact => m)
    []

/-- The compacted file content: one `SET` line per surviving key
(`writeln!(temp_file, ...)` loop in `LogFile::compact`). -/
def compactContent (m : List (List Nat × Option (List Nat))) : List Nat :=
  m.foldl
    (fun acc kv =>
      match kv.2 with
      | some v => acc ++ LogEntry.toString (.Set kv.1 v) ++ [10]
      | none => acc)
    []

/-- The on-disk and in-struct state of a `LogFile`: the file's byte
content and the tracked `current_size` field. -/
structure LogFileState where
  content : List Nat
  currentSize : Nat
deriving DecidableEq, Repr

/-- Model of `LogFile::compact`: replay, fold to the current state, rewrite the
file with the minimal SET sequence. The `current_size` field is not
touched by `compact` itself. A replay failure aborts the compaction. -/
def LogFileState.compact (s : LogFileState) : Except Unit LogFileState :=
  match replayE s.content with
  | .error e => .error e
  | .ok es => .ok ⟨compactContent (foldCompact es), s.currentSize⟩

/-- Model of `LogFile::append`: write the serialized entry plus a newline, add
`entry_str.len() + 1` to `current_size`, and if the tracked size now
exceeds `MAX_LOG_SIZE`, run `compact` and then reset `current_size` to
the new file length. Returns the file state and the I/O outcome. -/
def LogFileState.append (s : LogFileState) (e : LogEntry) :
    LogFileState × Except Unit Unit :=
  let line := e.toString
  let content := s.content ++ line ++ [10]
  let size := s.currentSize + line.length + 1
  if MAX_LOG_SIZE < size then
    match LogFileState.compact ⟨content, size⟩ with
    | .error err => (⟨content, size⟩, .error err)
    | .ok s2 => (⟨s2.content, s2.content.length⟩, .ok ())
  else (⟨content, size⟩, .ok ())

/-- The engine state (`Database` in `src/storage/mod.rs`): the in-memory
cache and the log file. -/
structure DbState where
  cache : List (List Nat × List Nat)
  log : LogFileState
deriving DecidableEq, Repr

namespace Database

/-- Model of `Database::set`: insert into the cache first, then append a SET record
to the log. `ioFail` models the underlying file write failing. -/
def set (ioFail : Bool) (k v : List Nat) (s : DbState) :
    DbState × Except Unit Unit :=
  let cache := assocUpd s.cache k v
  if ioFail then (⟨cache, s.log⟩, .error ())
  else
    let p := s.log.append (.Set k v)
    (⟨cache, p.1⟩, p.2)

/-- Model of `Database::delete`: remove from the cache; only when the key was
present, append a DELETE record to the log. -/
def delete (ioFail : Bool) (k : List Nat) (s : DbState) :
    DbState × Except Unit Unit :=
  if (assocGet s.cache k).isSome then
    let cache := assocDel s.cache k
    if ioFail then (⟨cache, s.log⟩, .error ())
    else
      let p := s.log.append (.Delete k)
      (⟨cache, p.1⟩, p.2)
  else (⟨assocDel s.cache k, s.log⟩, .ok ())

/-- Model of `Database::compact`: delegate to `LogFile::compact`; the state is
unchanged when compaction fails. -/
def compact (s : DbState) : DbState × Except Unit Unit :=
  match s.log.compact with
  | .error e => (s, .error e)
  | .ok l => (⟨s.cache, l⟩, .ok ())

/-- Model of `Database::get`: cache lookup only. -/
def get (s : DbState) (k : List Nat) : Option (List Nat) :=
  assocGet s.cache k

/-- Model of `Database::with_log_path` on an existing file: record the file length,
replay the log and build the cache by applying entries in order. -/
def openFrom (content : List Nat) : Except Unit DbState :=
  match replayE content with
  | .error e => .error e
  | .ok es =>
    .ok ⟨es.foldl
          (fun c e =>
            match e with
            | .Set k v => assocUpd c k v
            | .Delete k => assocDel c k
            | .Compact => c)
          [],
        ⟨content, content.length⟩⟩

end Database

/-- The response line written by `handle_client` for a DELETE command:
`OK` when the engine call succeeds, `ERROR` followed by the I/O error
text otherwise (the message bytes are not modelled). -/
def deleteResponse (ioFail : Bool) (k : List Nat) (s : DbState) : List Nat :=
  match (Database.delete ioFail k s).2 with
  | .ok _ => ascii "OK" ++ [10]
  | .error _ => ascii "ERROR" ++ [10]

/-- Modelled from the spec (§4.1): the condition the spec states for
emitting a SET value as-is — every byte a printable ASCII graphic or
ASCII whitespace other than 0x0A. Stated for comparison with the
source's `encodeValue`. -/
def specPrintableValue (v : List Nat) : Bool :=
  v.all fun b =>
    decide ((33 ≤ b ∧ b ≤ 126) ∨ ((b = 32 ∨ b = 9 ∨ b = 12 ∨ b = 13) ∧ b ≠ 10))

/-- The class of records whose serialized line survives the parser: no
space in the key, and a value that is either binary (base64-escaped) or
UTF-8 text that does not begin with the `base64:` literal. -/
def goodEntry : LogEntry → Prop
  | .Set k v => 32 ∉ k ∧
      (if isValidUtf8 v then v.take 7 ≠ base64Tag else ∀ b ∈ v, b < 256)
  | .Delete k => 32 ∉ k
  | .Compact => True

instance : DecidablePred goodEntry := fun e => by
  cases e <;> simp only [goodEntry] <;> infer_instance

/-- Records whose key, and whose value when emitted raw, contain no
newline byte. -/
def entryNoNl : LogEntry → Prop
  | .Set k v => 10 ∉ k ∧ (isValidUtf8 v = true → 10 ∉ v)
  | .Delete k => 10 ∉ k
  | .Compact => True

instance : DecidablePred entryNoNl := fun e => by
  cases e <;> simp only [entryNoNl] <;> infer_instance

section CodecLemmas

theorem b64cInv_b64c {n : Nat} (h : n < 64) : b64cInv (b64c n) = some n := by
  revert h
  revert n
  decide

theorem b64c_ne61 (n : Nat) : b64c n ≠ 61 := by
  unfold b64c
  repeat' split
  all_goals omega

theorem b64c_lt128 (n : Nat) : b64c n < 128 := by
  unfold b64c
  repeat' split
  all_goals omega

theorem b64c_ge43 (n : Nat) : 43 ≤ b64c n := by
  unfold b64c
  repeat' split
  all_goals omega

theorem b64_roundtrip : ∀ v : List Nat, (∀ b ∈ v, b < 256) →
    b64decode (b64encode v) = some v
  | [], _ => rfl
  | [a], h => by
      have ha : a < 256 := h a (by simp)
      simp only [b64encode, b64decode]
      rw [b64cInv_b64c (by omega), b64cInv_b64c (by omega)]
      simp only [Option.some_bind, if_true, and_self]
      rw [if_pos (show a % 4 * 16 % 16 = 0 by omega)]
      simp only [Option.some.injEq, List.cons.injEq, and_true]
      omega
  | [a, b], h => by
      have ha : a < 256 := h a (by simp)
      have hb : b < 256 := h b (by simp)
      simp only [b64encode, b64decode]
      rw [b64cInv_b64c (by omega), b64cInv_b64c (by omega)]
      simp only [Option.some_bind, if_true, and_self]
      rw [if_neg (b64c_ne61 _)]
      rw [b64cInv_b64c (by omega)]
      simp only [Option.some_bind, if_true]
      rw [if_pos (show b % 16 * 4 % 4 = 0 by omega)]
      simp only [Option.some.injEq, List.cons.injEq, and_true]
      refine ⟨by omega, by omega⟩
  | a :: b :: c :: r, h => by
      have ha : a < 256 := h a (by simp)
      have hb : b < 256 := h b (by simp)
      have hc : c < 256 := h c (by simp)
      have ih := b64_roundtrip r (fun x hx => h x (by simp [hx]))
      simp only [b64encode, b64decode]
      rw [b64cInv_b64c (by omega), b64cInv_b64c (by omega)]
      simp only [Option.some_bind]
      rw [if_neg (b64c_ne61 _)]
      rw [b64cInv_b64c (by omega)]
      simp only [Option.some_bind]
      rw [if_neg (b64c_ne61 _)]
      rw [b64cInv_b64c (by omega)]
      simp only [Option.some_bind]
      rw [ih]
      simp only [Option.map_some', Option.some.injEq, List.cons.injEq]
      refine ⟨by omega, by omega, by omega, trivial⟩

theorem b64c_le122 (n : Nat) : b64c n ≤ 122 := by
  unfold b64c
  repeat' split
  all_goals omega

theorem b64encode_range : ∀ v : List Nat, ∀ x ∈ b64encode v, 43 ≤ x ∧ x ≤ 122
  | [], x, hx => by simp [b64encode] at hx
  | [a], x, hx => by
      simp only [b64encode, List.mem_cons, List.mem_singleton] at hx
      rcases hx with h | h | h | h | h
      all_goals first
        | (subst h; exact ⟨b64c_ge43 _, b64c_le122 _⟩)
        | (subst h; omega)
        | simp at h
  | [a, b], x, hx => by
      simp only [b64encode, List.mem_cons, List.mem_singleton] at hx
      rcases hx with h | h | h | h | h
      all_goals first
        | (subst h; exact ⟨b64c_ge43 _, b64c_le122 _⟩)
        | (subst h; omega)
        | simp at h
  | a :: b :: c :: r, x, hx => by
      simp only [b64encode, List.mem_cons] at hx
      rcases hx with h | h | h | h | h
      · exact h ▸ ⟨b64c_ge43 _, b64c_le122 _⟩
      · exact h ▸ ⟨b64c_ge43 _, b64c_le122 _⟩
      · exact h ▸ ⟨b64c_ge43 _, b64c_le122 _⟩
      · exact h ▸ ⟨b64c_ge43 _, b64c_le122 _⟩
      · exact b64encode_range r x h

theorem b64encode_length : ∀ v : List Nat, v ≠ [] →
    v.length + 1 ≤ (b64encode v).length
  | [], h => absurd rfl h
  | [_], _ => by simp [b64encode]
  | [_, _], _ => by simp [b64encode]
  | a :: b :: c :: r, _ => by
      rcases eq_or_ne r [] with rfl | hr
      · simp [b64encode]
      · have := b64encode_length r hr
        simp only [b64encode, List.length_cons]
        omega

/-- The base64-escaped form of a value is strictly longer than the value,
hence never equal to it. -/
theorem encodeValue_of_invalid {v : List Nat} (h : isValidUtf8 v = false) :
    encodeValue v ≠ v := by
  intro he
  have hne : v ≠ [] := by
    intro hv
    subst hv
    exact Bool.noConfusion (by rw [← h]; rfl : true = false)
  rw [encodeValue, if_neg (by simp [h])] at he
  have hlen := congrArg List.length he
  have := b64encode_length v hne
  simp only [List.length_append] at hlen
  have htag : base64Tag.length = 7 := rfl
  omega

end CodecLemmas

section SplitLemmas

theorem splitOnce_append {a rest : List Nat} (h : 32 ∉ a) :
    splitOnce (a ++ 32 :: rest) = (a, some rest) := by
  induction a with
  | nil => simp [splitOnce]
  | cons b t ih =>
    simp only [List.cons_append, splitOnce, List.append_eq]
    rw [if_neg (by intro hb; exact h (by simp [hb]))]
    rw [ih (fun hm => h (by simp [hm]))]

theorem splitOnce_nospace {a : List Nat} (h : 32 ∉ a) :
    splitOnce a = (a, none) := by
  induction a with
  | nil => rfl
  | cons b t ih =>
    simp only [splitOnce]
    rw [if_neg (by intro hb; exact h (by simp [hb]))]
    rw [ih (fun hm => h (by simp [hm]))]

end SplitLemmas

section RoundTrip

theorem toString_set_shape (k v : List Nat) :
    (LogEntry.Set k v).toString = [83, 69, 84] ++ 32 :: (k ++ 32 :: encodeValue v) := rfl

theorem toString_delete_shape (k : List Nat) :
    (LogEntry.Delete k).toString = [68, 69, 76, 69, 84, 69] ++ 32 :: k := rfl

/-- Core round-trip lemma: parsing the serialized form of a good record,
when trimming does not alter the line, returns the record. -/
theorem fromString_toString {e : LogEntry}
    (htrim : trim e.toString = e.toString) (hgood : goodEntry e) :
    fromString e.toString = some e := by
  cases e with
  | Set k v =>
    obtain ⟨hk, hv⟩ := hgood
    rw [fromString]
    rw [htrim]
    rw [toString_set_shape] at htrim ⊢
    rw [if_neg (by simp)]
    rw [splitOnce_append (by decide)]
    simp only []
    rw [if_pos (by decide)]
    rw [splitOnce_append hk]
    simp only []
    by_cases hu : isValidUtf8 v
    · have henc : encodeValue v = v := by rw [encodeValue, if_pos hu]
      rw [henc]
      rw [hu] at hv
      simp only [if_true] at hv
      rw [if_neg hv]
    · have henc : encodeValue v = base64Tag ++ b64encode v := by
        rw [encodeValue, if_neg hu]
      rw [henc]
      rw [if_pos (by
        have : base64Tag.length = 7 := by decide
        rw [← this, List.take_left])]
      have hd : (base64Tag ++ b64encode v).drop 7 = b64encode v := by
        have : base64Tag.length = 7 := by decide
        rw [← this, List.drop_left]
      rw [hd]
      rw [if_neg hu] at hv
      simp only [b64_roundtrip v hv]
  | Delete k =>
    have hk : (32 : Nat) ∉ k := hgood
    rw [fromString]
    rw [htrim]
    rw [toString_delete_shape]
    rw [if_neg (by simp)]
    rw [splitOnce_append (a := [68, 69, 76, 69, 84, 69]) (by decide)]
    simp only []
    rw [if_neg (by decide), if_pos (by decide)]
    rw [splitOnce_nospace hk]
  | Compact => decide

end RoundTrip

section ReplayLemmas

/-- When every line is valid UTF-8, replay collects, in order, exactly
the records of the lines that parse. -/
theorem replayLines_all_valid {ls : List (List Nat)}
    (h : ∀ l ∈ ls, isValidUtf8 l = true) :
    replayLines ls = .ok (ls.filterMap fromString) := by
  induction ls with
  | nil => rfl
  | cons l t ih =>
    rw [replayLines]
    rw [if_pos (h l (by simp))]
    rw [ih fun x hx => h x (by simp [hx])]
    simp [List.filterMap_cons]
    cases fromString l <;> simp

theorem linesAux_term {c : List Nat} (t acc : List Nat)
    (h : c.getLast? = some 10) :
    linesAux acc (c ++ t) = linesAux acc c ++ linesAux [] t := by
  induction c generalizing acc with
  | nil => simp at h
  | cons b c ih =>
    rcases eq_or_ne c [] with rfl | hc
    · simp only [List.getLast?_singleton, Option.some.injEq] at h
      subst h
      simp [linesAux]
    · obtain ⟨x, c', rfl⟩ := List.exists_cons_of_ne_nil hc
      have hlast : (x :: c').getLast? = some 10 := by
        rwa [List.getLast?_cons_cons] at h
      by_cases hb : b = 10
      · subst hb
        show stripCr acc.reverse :: linesAux [] (x :: c' ++ t) =
          (stripCr acc.reverse :: linesAux [] (x :: c')) ++ linesAux [] t
        rw [ih [] hlast]
        simp
      · conv_lhs => rw [List.cons_append, linesAux]
        rw [if_neg hb]
        rw [ih (b :: acc) hlast]
        conv_rhs => rw [linesAux]
        rw [if_neg hb]

theorem linesAux_one_line {line : List Nat} (acc : List Nat) (h : 10 ∉ line) :
    linesAux acc (line ++ [10]) = [stripCr (line.reverse ++ acc).reverse] := by
  induction line generalizing acc with
  | nil => simp [linesAux]
  | cons b t ih =>
    have hb : b ≠ 10 := fun hh => h (by simp [hh])
    simp only [List.cons_append, linesAux, List.append_eq, if_neg hb]
    rw [ih (b :: acc) (fun hm => h (by simp [hm]))]
    simp

/-- Appending one newline-terminated, newline-free line to a terminated
(or empty) file adds exactly one line. -/
theorem linesOf_append_line {c line : List Nat}
    (hc : c = [] ∨ c.getLast? = some 10) (hl : 10 ∉ line) :
    linesOf (c ++ line ++ [10]) = linesOf c ++ [stripCr line] := by
  rcases hc with rfl | hc
  · simp only [List.nil_append, linesOf]
    rw [linesAux_one_line [] hl]
    simp [linesOf, linesAux]
  · rw [linesOf, List.append_assoc, linesAux_term (line ++ [10]) [] hc]
    rw [linesAux_one_line [] hl]
    simp [linesOf]

end ReplayLemmas

section AssocLemmas

theorem assocGet_upd_self {β : Type} (m : List (List Nat × β)) (k : List Nat)
    (v : β) : assocGet (assocUpd m k v) k = some v := by
  induction m with
  | nil => simp [assocUpd, assocGet]
  | cons p t ih =>
    rcases p with ⟨k', v'⟩
    by_cases hk : k' = k
    · simp [assocUpd, hk, assocGet]
    · simp only [assocUpd, if_neg hk, assocGet]
      exact ih

theorem assocDel_of_none {β : Type} {m : List (List Nat × β)} {k : List Nat}
    (h : assocGet m k = none) : assocDel m k = m := by
  induction m with
  | nil => rfl
  | cons p t ih =>
    rcases p with ⟨k', v'⟩
    by_cases hk : k' = k
    · rw [assocGet, if_pos hk] at h
      exact absurd h (by simp)
    · rw [assocGet, if_neg hk] at h
      rw [assocDel, if_neg hk, ih h]

end AssocLemmas

section NoNewline

theorem toString_no_newline {e : LogEntry} (h : entryNoNl e) :
    10 ∉ e.toString := by
  cases e with
  | Set k v =>
    obtain ⟨hk, hv⟩ := h
    intro hm
    rw [toString_set_shape] at hm
    simp only [List.mem_append, List.mem_cons] at hm
    rcases hm with hm | hm | hm
    · exact absurd hm (by decide)
    · omega
    · rcases List.mem_append.mp (by simpa using hm) with hm2 | hm2
      · exact hk hm2
      · rw [encodeValue] at hm2
        split at hm2
        · exact hv (by assumption) hm2
        · rcases List.mem_append.mp hm2 with hm3 | hm3
          · exact absurd hm3 (by decide)
          · have := b64encode_range v 10 hm3
            omega
  | Delete k =>
    intro hm
    rw [toString_delete_shape] at hm
    simp only [List.mem_append, List.mem_cons] at hm
    rcases hm with hm | hm | hm
    · exact absurd hm (by decide)
    · omega
    · exact h hm
  | Compact => decide

end NoNewline

section Claims

/-- C3 counterexample: the value `[0xC3, 0xA9]` (UTF-8 for a non-ASCII
character) is not printable ASCII, so the spec's condition demands
base64-escaping, yet `to_string` emits it as-is. -/
theorem c3_cex :
    encodeValue [195, 169] = [195, 169] ∧
    specPrintableValue [195, 169] = false := by
  constructor
  · decide
  · decide

/-- C3 (amended): a SET value is emitted as-is if and only if it is valid
UTF-8; otherwise it is emitted as `base64:` plus its base64 encoding. -/
theorem c3_value_emitted_iff_utf8 (v : List Nat) :
    encodeValue v = v ↔ isValidUtf8 v = true := by
  constructor
  · intro h
    by_contra hh
    rw [Bool.not_eq_true] at hh
    exact encodeValue_of_invalid hh h
  · intro h
    rw [encodeValue, if_pos h]

/-- C4 counterexample: for the valid key `k` and the small UTF-8 value
`"a\nb"`, the serialized record contains an embedded newline before the
terminator, and the bytes written to disk span two lines. -/
theorem c4_cex :
    (10 : Nat) ∈ (LogEntry.Set [107] [97, 10, 98]).toString ∧
    (linesOf ((LogFileState.append ⟨[], 0⟩
        (.Set [107] [97, 10, 98])).1.content)).length = 2 := by
  constructor
  · decide
  · decide

/-- C4 (amended): `append` writes the serialized record followed by one
newline; the written bytes contain no embedded newline provided the key
contains none and the value, when it is emitted raw (valid UTF-8),
contains none. -/
theorem c4_one_line {s : LogFileState} {e : LogEntry}
    (hnl : entryNoNl e)
    (hsize : s.currentSize + e.toString.length + 1 ≤ MAX_LOG_SIZE) :
    (s.append e).1.content = s.content ++ e.toString ++ [10] ∧
    (e.toString ++ [10]).getLast? = some 10 ∧
    10 ∉ e.toString := by
  refine ⟨?_, by simp, toString_no_newline hnl⟩
  simp only [LogFileState.append]
  rw [if_neg (by omega)]

theorem c4_one_line_witness :
    entryNoNl (LogEntry.Set [107] [104, 105]) ∧
    ((LogFileState.append ⟨[], 0⟩ (.Set [107] [104, 105])).1.content =
        [] ++ (LogEntry.Set [107] [104, 105]).toString ++ [10] ∧
      ((LogEntry.Set [107] [104, 105]).toString ++ [10]).getLast? = some 10 ∧
      10 ∉ (LogEntry.Set [107] [104, 105]).toString) :=
  ⟨by decide, c4_one_line (by decide) (by decide)⟩

/-- C5 counterexample: `set` with the empty key returns `Ok` and mutates
the store, where the claim demands an `InvalidKey` error. -/
theorem c5_cex :
    (Database.set false [] [118] ⟨[], ⟨[], 0⟩⟩).2 = .ok () ∧
    Database.get (Database.set false [] [118] ⟨[], ⟨[], 0⟩⟩).1 [] = some [118] := by
  constructor
  · decide
  · decide

/-- C5 (amended): `set` performs no key or value validation at all: for
every key (including the empty key) and every value (of any size), when
the underlying write succeeds and no compaction is triggered it returns
`Ok` and installs the binding. -/
theorem c5_set_never_validates (k v : List Nat) (s : DbState)
    (hsize : s.log.currentSize + (LogEntry.Set k v).toString.length + 1 ≤
      MAX_LOG_SIZE) :
    (Database.set false k v s).2 = .ok () ∧
    (Database.set false k v s).1.cache = assocUpd s.cache k v := by
  constructor
  · show (s.log.append (.Set k v)).2 = .ok ()
    simp only [LogFileState.append]
    rw [if_neg (by omega)]
  · rfl

theorem c5_set_never_validates_witness :
    (Database.set false [] [118] ⟨[], ⟨[], 0⟩⟩).2 = .ok () ∧
    (Database.set false [] [118] ⟨[], ⟨[], 0⟩⟩).1.cache = assocUpd [] [] [118] :=
  c5_set_never_validates [] [118] ⟨[], ⟨[], 0⟩⟩ (by decide)

/-- C6 counterexample: when the log append fails, the cache nevertheless
holds the new binding: the index reflects a mutation that is not on disk. -/
theorem c6_cex :
    (Database.set true [107] [118] ⟨[], ⟨[], 0⟩⟩).2 = .error () ∧
    (Database.set true [107] [118] ⟨[], ⟨[], 0⟩⟩).1.cache = [([107], [118])] ∧
    ([([107], [118])] : List (List Nat × List Nat)) ≠ [] := by
  refine ⟨rfl, rfl, by decide⟩

/-- C6 (amended): the cache is updated before the log append, so a failed
append leaves the index already holding the attempted mutation (the log
itself is unchanged). -/
theorem c6_set_io_failure (k v : List Nat) (s : DbState) :
    (Database.set true k v s).2 = .error () ∧
    (Database.set true k v s).1.cache = assocUpd s.cache k v ∧
    (Database.set true k v s).1.log = s.log :=
  ⟨rfl, rfl, rfl⟩

/-- C7 counterexample: a truncated final line (no terminating newline) is
parsed and applied like any other line, not skipped: replay of the bytes
`"SET k v"` yields the SET record. -/
theorem c7_cex :
    replayE (ascii "SET k v") = .ok [.Set [107] [118]] ∧
    replayE (ascii "SET k v") ≠ .ok [] := by
  constructor
  · decide
  · decide

/-- C7 (amended): when every line of the file is valid UTF-8, replay
returns, in file order, exactly the records of the lines that parse
(unparsable lines are skipped); a truncated final line is processed like
any other line. A line that is not valid UTF-8 aborts replay with an
error instead. -/
theorem c7_replay_filter (c : List Nat)
    (h : ∀ l ∈ linesOf c, isValidUtf8 l = true) :
    replayE c = .ok ((linesOf c).filterMap fromString) :=
  replayLines_all_valid h

theorem c7_replay_filter_witness :
    replayE (ascii "JUNK\nSET a b\nSET c d") =
      .ok ((linesOf (ascii "JUNK\nSET a b\nSET c d")).filterMap fromString) ∧
    (linesOf (ascii "JUNK\nSET a b\nSET c d")).filterMap fromString =
      [.Set [97] [98], .Set [99] [100]] :=
  ⟨c7_replay_filter _ (by decide), by decide⟩

/-- C8 counterexample: the engine's direct `compact` shrinks the file from
16 to 8 bytes but leaves the tracked byte length at 16. -/
theorem c8_cex :
    Database.compact ⟨[], ⟨ascii "SET a b\nSET a c\n", 16⟩⟩ =
      (⟨[], ⟨ascii "SET a c\n", 16⟩⟩, .ok ()) ∧
    (16 : Nat) ≠ (ascii "SET a c\n").length := by
  constructor
  · decide
  · decide

/-- C8 (amended): only the compaction triggered from within `append`
resets the tracked byte length to the new file size; `compact` itself
(and hence the engine's direct compact operation) leaves the tracked
length unchanged. -/
theorem c8_size_tracking :
    (∀ (s : LogFileState) (e : LogEntry),
        MAX_LOG_SIZE < s.currentSize + e.toString.length + 1 →
        (s.append e).2 = .ok () →
        (s.append e).1.currentSize = (s.append e).1.content.length) ∧
    (∀ (s s2 : LogFileState), s.compact = .ok s2 →
        s2.currentSize = s.currentSize) := by
  constructor
  · intro s e hsize hok
    simp only [LogFileState.append] at hok ⊢
    rw [if_pos hsize] at hok ⊢
    cases hcomp : LogFileState.compact
        ⟨s.content ++ e.toString ++ [10],
          s.currentSize + e.toString.length + 1⟩ with
    | error err =>
      rw [hcomp] at hok
      exact absurd hok (by simp)
    | ok s2 =>
      rfl
  · intro s s2 h
    rw [LogFileState.compact] at h
    cases hrep : replayE s.content with
    | error e =>
      rw [hrep] at h
      exact absurd h (by simp)
    | ok es =>
      rw [hrep] at h
      simp only [Except.ok.injEq] at h
      rw [← h]

theorem c8_size_tracking_witness :
    ((LogFileState.append ⟨ascii "SET a b\nSET a c\n", 2000000⟩
        (.Set [97] [100])).1.currentSize =
      (LogFileState.append ⟨ascii "SET a b\nSET a c\n", 2000000⟩
        (.Set [97] [100])).1.content.length) ∧
    ((⟨ascii "SET a c\n", 16⟩ : LogFileState).currentSize = 16) :=
  ⟨c8_size_tracking.1 ⟨ascii "SET a b\nSET a c\n", 2000000⟩ (.Set [97] [100])
      (by decide) (by decide),
    c8_size_tracking.2 ⟨ascii "SET a b\nSET a c\n", 16⟩ ⟨ascii "SET a c\n", 16⟩
      (by decide)⟩

theorem delete_absent {s : DbState} {k : List Nat}
    (h : Database.get s k = none) (io : Bool) :
    Database.delete io k s = (s, .ok ()) := by
  rw [Database.get] at h
  rw [Database.delete]
  rw [h]
  simp only [Option.isSome_none, Bool.false_eq_true, if_false]
  rw [assocDel_of_none h]

/-- C9: deleting an absent key returns `Ok`, the protocol response is the
line `OK`, and a second delete of the same key also returns `Ok` (the
state is unchanged). -/
theorem c9_delete_missing_ok {s : DbState} {k : List Nat} (io io2 : Bool)
    (h : Database.get s k = none) :
    Database.delete io k s = (s, .ok ()) ∧
    deleteResponse io k s = ascii "OK" ++ [10] ∧
    Database.delete io2 k (Database.delete io k s).1 = (s, .ok ()) := by
  have h1 := delete_absent h io
  refine ⟨h1, ?_, ?_⟩
  · rw [deleteResponse, h1]
  · rw [h1]
    exact delete_absent h io2

theorem c9_delete_missing_ok_witness :
    Database.get (⟨[([97], [98])], ⟨ascii "SET a b\n", 8⟩⟩ : DbState) [120] =
      none ∧
    (Database.delete false [120] ⟨[([97], [98])], ⟨ascii "SET a b\n", 8⟩⟩ =
        (⟨[([97], [98])], ⟨ascii "SET a b\n", 8⟩⟩, .ok ()) ∧
      deleteResponse false [120] ⟨[([97], [98])], ⟨ascii "SET a b\n", 8⟩⟩ =
        ascii "OK" ++ [10] ∧
      Database.delete false [120]
          (Database.delete false [120]
            ⟨[([97], [98])], ⟨ascii "SET a b\n", 8⟩⟩).1 =
        (⟨[([97], [98])], ⟨ascii "SET a b\n", 8⟩⟩, .ok ())) :=
  ⟨by decide, c9_delete_missing_ok false false (by decide)⟩

/-- C10: `delete` appends a DELETE record to the log exactly when the key
is present: for an absent key the call returns `Ok` leaving the whole
state (log included) unchanged; for a present key (io succeeding, no
compaction triggered) the log grows by exactly the DELETE line and the
binding is removed. -/
theorem c10_delete_log_frame (s : DbState) (k : List Nat) :
    (Database.get s k = none → ∀ io, Database.delete io k s = (s, .ok ())) ∧
    ((Database.get s k).isSome = true →
      s.log.currentSize + (LogEntry.Delete k).toString.length + 1 ≤
        MAX_LOG_SIZE →
      (Database.delete false k s).1.log.content =
        s.log.content ++ (LogEntry.Delete k).toString ++ [10] ∧
      (Database.delete false k s).1.cache = assocDel s.cache k) := by
  constructor
  · intro h io
    exact delete_absent h io
  · intro hp hsize
    rw [Database.get] at hp
    rw [Database.delete, if_pos hp]
    constructor
    · show (s.log.append (.Delete k)).1.content = _
      simp only [LogFileState.append]
      rw [if_neg (by omega)]
    · rfl

theorem c10_delete_log_frame_witness :
    (Database.delete false [120] (⟨[([97], [98])], ⟨[], 0⟩⟩ : DbState) =
      (⟨[([97], [98])], ⟨[], 0⟩⟩, .ok ())) ∧
    ((Database.delete false [97]
        (⟨[([97], [98])], ⟨[], 0⟩⟩ : DbState)).1.log.content =
      [] ++ (LogEntry.Delete [97]).toString ++ [10] ∧
    (Database.delete false [97]
        (⟨[([97], [98])], ⟨[], 0⟩⟩ : DbState)).1.cache =
      assocDel [([97], [98])] [97]) :=
  ⟨(c10_delete_log_frame ⟨[([97], [98])], ⟨[], 0⟩⟩ [120]).1 (by decide) false,
    (c10_delete_log_frame ⟨[([97], [98])], ⟨[], 0⟩⟩ [97]).2 (by decide)
      (by decide)⟩

/-- C1 counterexample: the record SET k "base64:" (a valid key and a
seven-byte value) serializes to a line that parses back as SET k "" —
serialization followed by parsing is not the identity. -/
theorem c1_cex :
    fromString (LogEntry.Set [107] base64Tag).toString =
      some (.Set [107] []) ∧
    fromString (LogEntry.Set [107] base64Tag).toString ≠
      some (.Set [107] base64Tag) := by
  constructor
  · decide
  · decide

/-- C1 (amended): serialization followed by parsing is the identity on
records whose key contains no space, whose serialized line is unchanged
by whitespace trimming (the key and a raw-emitted value introduce no
leading or trailing whitespace and the value is non-empty), and whose
value, when it is valid UTF-8, does not begin with the literal
`base64:`; binary values (escaped to base64) always round-trip. -/
theorem c1_roundtrip_good (e : LogEntry)
    (htrim : trim e.toString = e.toString) (hgood : goodEntry e) :
    fromString e.toString = some e :=
  fromString_toString htrim hgood

theorem c1_roundtrip_good_witness :
    (trim (LogEntry.Set [107] [0, 255, 16]).toString =
        (LogEntry.Set [107] [0, 255, 16]).toString ∧
      goodEntry (.Set [107] [0, 255, 16])) ∧
    fromString (LogEntry.Set [107] [0, 255, 16]).toString =
      some (.Set [107] [0, 255, 16]) :=
  ⟨⟨by decide, by decide⟩,
    c1_roundtrip_good (.Set [107] [0, 255, 16]) (by decide) (by decide)⟩

/-- C2 counterexample: after `set k "base64:"` returns `Ok`, reopening
the database from the written log yields `get k == Some("")`, not the
stored seven-byte value. -/
theorem c2_cex :
    (Database.set false [107] base64Tag ⟨[], ⟨[], 0⟩⟩).2 = .ok () ∧
    (Database.openFrom
        ((Database.set false [107] base64Tag ⟨[], ⟨[], 0⟩⟩).1.log.content)).map
      (fun d => Database.get d [107]) = .ok (some []) ∧
    some ([] : List Nat) ≠ some base64Tag := by
  refine ⟨by decide, by decide, by decide⟩

/-- C2 (amended): after a successful `set k v` (io succeeding, no
compaction triggered) on a state whose log is newline-terminated (or
empty) and whose existing lines are valid UTF-8, reopening from the
written log yields `get k == Some v`, provided the record is in the
round-tripping class: key without spaces or newlines, serialized line
valid UTF-8, unchanged by trimming, without embedded newline or trailing
carriage return, and the value, when valid UTF-8, not beginning with the
`base64:` literal. -/
theorem c2_durability_good (k v : List Nat) (s : DbState)
    (hgood : goodEntry (.Set k v))
    (htrim : trim (LogEntry.Set k v).toString = (LogEntry.Set k v).toString)
    (hnl : 10 ∉ (LogEntry.Set k v).toString)
    (hcr : stripCr (LogEntry.Set k v).toString = (LogEntry.Set k v).toString)
    (hvalid : isValidUtf8 (LogEntry.Set k v).toString = true)
    (hend : s.log.content = [] ∨ s.log.content.getLast? = some 10)
    (hlines : ∀ l ∈ linesOf s.log.content, isValidUtf8 l = true)
    (hsize : s.log.currentSize + (LogEntry.Set k v).toString.length + 1 ≤
      MAX_LOG_SIZE) :
    (Database.set false k v s).2 = .ok () ∧
    (Database.openFrom ((Database.set false k v s).1.log.content)).map
      (fun d => Database.get d k) = .ok (some v) := by
  have hok : (Database.set false k v s).2 = .ok () := by
    show (s.log.append (.Set k v)).2 = .ok ()
    simp only [LogFileState.append]
    rw [if_neg (by omega)]
  have hcontent : (Database.set false k v s).1.log.content =
      s.log.content ++ (LogEntry.Set k v).toString ++ [10] := by
    show (s.log.append (.Set k v)).1.content = _
    simp only [LogFileState.append]
    rw [if_neg (by omega)]
  refine ⟨hok, ?_⟩
  rw [hcontent]
  have hlines2 : linesOf (s.log.content ++ (LogEntry.Set k v).toString ++ [10]) =
      linesOf s.log.content ++ [(LogEntry.Set k v).toString] := by
    rw [linesOf_append_line hend hnl, hcr]
  have hrep : replayE (s.log.content ++ (LogEntry.Set k v).toString ++ [10]) =
      .ok ((linesOf s.log.content).filterMap fromString ++ [.Set k v]) := by
    rw [replayE, hlines2]
    rw [replayLines_all_valid (by
      intro l hl
      rcases List.mem_append.mp hl with hl | hl
      · exact hlines l hl
      · simp only [List.mem_singleton] at hl
        subst hl
        exact hvalid)]
    rw [List.filterMap_append]
    simp only [List.filterMap_cons, List.filterMap_nil]
    rw [fromString_toString htrim hgood]
  rw [Database.openFrom, hrep]
  simp only [Except.map]
  rw [Database.get]
  simp only [List.foldl_append, List.foldl_cons, List.foldl_nil]
  rw [assocGet_upd_self]

theorem c2_durability_good_witness :
    (Database.set false [107] [0, 255, 16] ⟨[], ⟨[], 0⟩⟩).2 = .ok () ∧
    (Database.openFrom
        ((Database.set false [107] [0, 255, 16]
          ⟨[], ⟨[], 0⟩⟩).1.log.content)).map
      (fun d => Database.get d [107]) = .ok (some [0, 255, 16]) :=
  c2_durability_good [107] [0, 255, 16] ⟨[], ⟨[], 0⟩⟩
    (by decide) (by decide) (by decide) (by decide) (by decide)
    (Or.inl rfl) (by decide) (by decide)

end Claims

end Keystone
